import Mathlib

/-!
Shallow embedding of `src/play.c` (play v0.1, a simplified music play
command parser).

The C `double` arithmetic of `note_to_freq` is modelled exactly over the
real numbers, so `note_to_freq` is a noncomputable definition; `round` is
the Mathlib nearest-integer rounding `round x = ⌊x + 1/2⌋`, which agrees
with the C `round` on the nonnegative values produced here (the computed
frequency is always positive).

The C callback `tonew` is modelled by returning, in order, the list of
invocations `(frequency, gap_ms)`.  The integer returned by `play` is the
second component of the result: `-1` on full consumption of the input,
otherwise the 0-based offset of the first rejected character.  A C string
is the list of its characters before the NUL terminator, so the one-step
lookahead test `!*(s + 1)` becomes "the rest of the list is empty".
-/

namespace Play

/-- Half-step table of `note_to_freq` (the `switch (note)` statement in
play.c, lines 66-75): C,D,E,F,G,A,B at -21,-19,-17,-16,-14,-12,-10 from
the 55 Hz reference, any other character at 0. -/
def letter_half_steps (note : Char) : Int :=
  if note = 'C' then -21
  else if note = 'D' then -19
  else if note = 'E' then -17
  else if note = 'F' then -16
  else if note = 'G' then -14
  else if note = 'A' then -12
  else if note = 'B' then -10
  else 0

/-- Embedding of `note_to_freq` (play.c lines 61-88): half-step offset from
the table, adjusted by the accidental character (`#`/`+` sharp, `-` flat),
then `freq = 2^(half_steps/12) * 55`, scaled by the octave branch, and
rounded to the nearest integer. -/
noncomputable def note_to_freq (note half : Char) (octave : Int) : Int :=
  let half_steps : Int :=
    if half = '#' ∨ half = '+' then letter_half_steps note + 1
    else if half = '-' then letter_half_steps note - 1
    else letter_half_steps note
  let freq : ℝ := (2 : ℝ) ^ ((half_steps : ℝ) / 12) * 55
  let freq : ℝ :=
    if 1 < octave then freq * (2 : ℝ) ^ octave
    else if octave < 1 then freq / (2 : ℝ) ^ (-octave)
    else freq
  round freq

/-- Embedding of `play_note` (play.c lines 96-107): uppercase the note,
and only when `duration >= 1` invoke the callback with frequency
`note_to_freq` (or 0 for a rest) and gap `1000 / duration`.  The callback
invocation is modelled as the returned `some` value; `none` means the
callback is not invoked. -/
noncomputable def play_note (note half_tone : Char) (octave duration : Int) :
    Option (Int × Int) :=
  let n := note.toUpper
  if 1 ≤ duration then
    some (if n ≠ 'R' then note_to_freq n half_tone octave else 0, 1000 / duration)
  else
    none

/-- The parser primary state enum (play.c lines 49-52). -/
inductive ParsingState where
  | command
  | octave_number
deriving DecidableEq

/-- The local variables of `play` (play.c lines 117-124) that live across
loop iterations.  The C local `note` is uninitialized until the first note
letter is consumed; it is only ever read when `pending_note` is true, and
we initialize it to the NUL character. -/
structure PlayState where
  state : ParsingState
  octave : Int
  note : Char
  duration : Int
  half_tone : Char
  pending_note : Bool
  length_specified : Bool
deriving DecidableEq

/-- The note-letter / rest test of play.c lines 133-134. -/
def is_note_char (c : Char) : Prop :=
  ('a' ≤ c ∧ c ≤ 'g') ∨ ('A' ≤ c ∧ c ≤ 'G') ∨ c = 'r' ∨ c = 'R'

instance (c : Char) : Decidable (is_note_char c) := by
  unfold is_note_char
  exact inferInstance

/-- One iteration of the `for` loop body of `play` (play.c lines 130-181).
`last` tells whether `*(s + 1)` is the NUL terminator.  The result is
`none` when the body executes `return pos` (a rejected character), and
otherwise the updated state together with the callback invocations made
during this iteration, in order. -/
noncomputable def step (st : PlayState) (c : Char) (last : Bool) :
    Option (PlayState × List (Int × Int)) :=
  match st.state with
  | .command =>
    if is_note_char c then
      some ({ st with
                note := c
                half_tone := Char.ofNat 0
                duration := 1
                pending_note := true
                length_specified := false },
        (if st.pending_note then
          (play_note st.note st.half_tone st.octave st.duration).toList
        else []) ++
        (if last then (play_note c (Char.ofNat 0) st.octave 1).toList else []))
    else if c = 'o' ∨ c = 'O' then
      if st.pending_note then
        some ({ st with
                  pending_note := false
                  length_specified := false
                  state := .octave_number },
          (play_note st.note st.half_tone st.octave st.duration).toList)
      else
        some ({ st with state := .octave_number }, [])
    else if st.pending_note then
      if !st.length_specified then
        if (c = '#' ∨ c = '+' ∨ c = '-') ∧ st.note ≠ 'r' ∧ st.note ≠ 'R' then
          some ({ st with half_tone := c }, [])
        else if c.isDigit then
          some ({ st with
                    duration := (c.toNat : Int) - ('0'.toNat : Int)
                    length_specified := true }, [])
        else
          none
      else if c.isDigit then
        some ({ st with
                  duration := st.duration * 10 + ((c.toNat : Int) - ('0'.toNat : Int))
                  pending_note := false
                  length_specified := false
                  state := .command },
          (play_note st.note st.half_tone st.octave
            (st.duration * 10 + ((c.toNat : Int) - ('0'.toNat : Int)))).toList)
      else
        none
    else
      some (st, [])
  | .octave_number =>
    if c.isDigit then
      some ({ st with
                octave := (c.toNat : Int) - ('0'.toNat : Int)
                state := .command }, [])
    else
      none

/-- The `for` loop of `play` (play.c lines 130-182): process the remaining
characters from position `pos` in state `st`; collect the callback
invocations and the return value (`-1` on falling off the end of the
input, otherwise the position of the rejected character). -/
noncomputable def playLoop : PlayState → Nat → List Char → List (Int × Int) × Int
  | _, _, [] => ([], -1)
  | st, pos, c :: rest =>
    match step st c rest.isEmpty with
    | none => ([], (pos : Int))
    | some (st1, evs) =>
      let r := playLoop st1 (pos + 1) rest
      (evs ++ r.1, r.2)

/-- The initial values of the locals of `play` (play.c lines 117-124). -/
def init_state : PlayState :=
  { state := .command
    octave := 4
    note := Char.ofNat 0
    duration := 1
    half_tone := Char.ofNat 0
    pending_note := false
    length_specified := false }

/-- Embedding of `play` (play.c lines 115-183). -/
noncomputable def play (s : String) : List (Int × Int) × Int :=
  playLoop init_state 0 s.data

/-- Accidental as the spec describes it (spec section 4.2): none, sharp or
flat. -/
inductive Accidental where
  | none
  | sharp
  | flat
deriving DecidableEq

/-- The accidental denoted by a half-tone character: `#` and `+` are sharp,
`-` is flat, anything else is none (the `switch (half)` of play.c
lines 76-80). -/
def accidental_of (half : Char) : Accidental :=
  if half = '#' ∨ half = '+' then .sharp
  else if half = '-' then .flat
  else .none

/-- Restatement of the half-step offsets from the spec wording (section
4.2), for comparison with `letter_half_steps`. -/
def spec_offset (letter : Char) : Int :=
  if letter = 'C' then -21
  else if letter = 'D' then -19
  else if letter = 'E' then -17
  else if letter = 'F' then -16
  else if letter = 'G' then -14
  else if letter = 'A' then -12
  else if letter = 'B' then -10
  else 0

/-- Accidental adjustment from the spec wording: sharp adds one half-step,
flat subtracts one. -/
def spec_acc_adjust : Accidental → Int
  | .sharp => 1
  | .flat => -1
  | .none => 0

/-- Octave scale factor from the spec wording: `2^octave` when
`octave > 1`, `1 / 2^(-octave)` when `octave < 1`, and 1 when
`octave == 1`. -/
noncomputable def spec_scale (octave : Int) : ℝ :=
  if 1 < octave then (2 : ℝ) ^ octave
  else if octave < 1 then 1 / (2 : ℝ) ^ (-octave)
  else 1

/-- The frequency formula exactly as the spec words it (section 4.2 and
claim C4): `round(55 * 2^(h/12) * scale)`.  Compared against the source
definition `note_to_freq`. -/
noncomputable def spec_freq (letter : Char) (acc : Accidental) (octave : Int) : Int :=
  round ((55 : ℝ) *
    (2 : ℝ) ^ (((spec_offset letter + spec_acc_adjust acc : Int) : ℝ) / 12) *
    spec_scale octave)

/-- The case swaps allowed by claim C9: each of the characters a-g, r, o
replaced by its uppercase form, or vice versa. -/
def case_pairs : List (Char × Char) :=
  [('a', 'A'), ('b', 'B'), ('c', 'C'), ('d', 'D'), ('e', 'E'), ('f', 'F'),
   ('g', 'G'), ('r', 'R'), ('o', 'O'),
   ('A', 'a'), ('B', 'b'), ('C', 'c'), ('D', 'd'), ('E', 'e'), ('F', 'f'),
   ('G', 'g'), ('R', 'r'), ('O', 'o')]

/-- Two characters are case variants when they are equal or one is a
case swap of the other among the letters a-g, r, o. -/
def caseVariant (c d : Char) : Prop :=
  c = d ∨ (c, d) ∈ case_pairs

instance (c d : Char) : Decidable (caseVariant c d) := by
  unfold caseVariant
  exact inferInstance

/-- Relation between the outcomes of one loop iteration on two case-variant
inputs: both reject, or both succeed with the same callback invocations
and with states that agree except that the stored note characters are case
variants. -/
def outRel : Option (PlayState × List (Int × Int)) →
    Option (PlayState × List (Int × Int)) → Prop
  | none, none => True
  | some p, some q =>
      q.1 = { p.1 with note := q.1.note } ∧ caseVariant p.1.note q.1.note ∧
      q.2 = p.2
  | _, _ => False

/-- Whether one loop iteration rejects its character does not depend on the
one-character lookahead: the lookahead is only used in the note-letter
branch, which never rejects. -/
theorem step_none_iff (st : PlayState) (c : Char) (b b' : Bool) :
    step st c b = none ↔ step st c b' = none := by
  obtain ⟨s0, oc, n, du, ht, pe, ls⟩ := st
  cases s0
  all_goals simp only [step]
  all_goals split_ifs <;> simp

/-- The return value of the parse loop is either -1 or the position of a
character of the remaining input. -/
theorem playLoop_result (l : List Char) : ∀ (st : PlayState) (pos : Nat),
    (playLoop st pos l).2 = -1 ∨
    ((pos : Int) ≤ (playLoop st pos l).2 ∧
      (playLoop st pos l).2 < (pos : Int) + l.length) := by
  induction l with
  | nil => intro st pos; left; rfl
  | cons c rest ih =>
    intro st pos
    simp only [playLoop]
    cases hs : step st c rest.isEmpty with
    | none =>
      right
      simp only []
      constructor
      · exact le_refl _
      · simp only [List.length_cons]
        push_cast
        omega
    | some pr =>
      obtain ⟨st1, evs⟩ := pr
      simp only []
      rcases ih st1 (pos + 1) with h | h
      · left; exact h
      · right
        simp only [List.length_cons]
        push_cast at h ⊢
        omega

/-- Everything the parse loop does when it rejects at position `n` is
determined by the characters up to and including position `n`. -/
theorem playLoop_take (l : List Char) : ∀ (st : PlayState) (pos n : Nat),
    (playLoop st pos l).2 = (n : Int) →
    playLoop st pos (l.take (n + 1 - pos)) = playLoop st pos l := by
  induction l with
  | nil =>
    intro st pos n h
    simp only [playLoop] at h
    omega
  | cons c rest ih =>
    intro st pos n h
    have hb := playLoop_result (c :: rest) st pos
    rw [h] at hb
    have hpos : pos ≤ n ∧ n < pos + (c :: rest).length := by
      rcases hb with hb | hb
      · omega
      · omega
    have harith : n + 1 - pos = (n - pos) + 1 := by omega
    rw [harith]
    rw [List.take_succ_cons]
    cases hs : step st c rest.isEmpty with
    | none =>
      have hn : (pos : Int) = (n : Int) := by
        simp only [playLoop, hs] at h
        exact h
      have hn0 : n - pos = 0 := by omega
      rw [hn0]
      have hs' : step st c (List.take 0 rest).isEmpty = none :=
        (step_none_iff st c rest.isEmpty (List.take 0 rest).isEmpty).mp hs
      simp only [playLoop, hs, hs']
    | some pr =>
      obtain ⟨st1, evs⟩ := pr
      have h' : (playLoop st1 (pos + 1) rest).2 = (n : Int) := by
        simp only [playLoop, hs] at h
        exact h
      have hb2 := playLoop_result rest st1 (pos + 1)
      rw [h'] at hb2
      have hrest : pos + 1 ≤ n ∧ n < pos + 1 + rest.length := by
        rcases hb2 with hb2 | hb2
        · omega
        · push_cast at hb2; omega
      have hne2 : (List.take (n - pos) rest).isEmpty = rest.isEmpty := by
        cases rest with
        | nil => simp
        | cons d ds =>
          obtain ⟨k, hk⟩ : ∃ k, n - pos = k + 1 := ⟨n - pos - 1, by omega⟩
          rw [hk, List.take_succ_cons]
          rfl
      have hih := ih st1 (pos + 1) n h'
      have harith2 : n + 1 - (pos + 1) = n - pos := by omega
      rw [harith2] at hih
      simp only [playLoop, hne2, hs, hih]

/-- Claim C1.  The spec says that a pending note whose modifier has been
consumed is still emitted at end-of-input: `play "R2"` should invoke the
callback once with frequency 0 and gap 500, and `play "C#"` once with the
sharped C.  The code disagrees: the end-of-input flush happens only when
the final character is the note letter itself (the `!*(s + 1)` lookahead),
so after a trailing modifier the pending note is silently dropped; both
inputs return -1 with zero callback invocations. -/
theorem c1_pending_note_dropped_at_end :
    play "R2" = ([], -1) ∧ play "C#" = ([], -1) :=
  ⟨rfl, rfl⟩

/-- Claim C2, counterexample.  The claim says an unrecognized character
with no pending note is a hard error: `play "%C"` should return 0 with
zero callback invocations.  In the code the COMMAND dispatch has no final
else-branch, so the character is silently skipped: `play "%C"` returns -1
and invokes the callback once, for the C note. -/
theorem c2_counterexample :
    play "%C" = ([(note_to_freq 'C' (Char.ofNat 0) 4, 1000)], -1) ∧
    (play "%C").2 ≠ 0 ∧ (play "%C").1.length ≠ 0 := by
  refine ⟨rfl, ?_, ?_⟩
  · have h : (play "%C").2 = -1 := rfl
    rw [h]; decide
  · have h : (play "%C").1.length = 1 := rfl
    rw [h]; decide

/-- Claim C2, amended.  In state COMMAND, a character that is not a note
letter, not a rest and not an octave marker, encountered while no note is
pending, is silently skipped: the state is unchanged, no callback is
invoked and parsing continues with the next character; in particular
`play "%C"` returns -1 and invokes the callback exactly once (for C). -/
theorem c2_amended_skip :
    (∀ (st : PlayState) (pos : Nat) (c : Char) (rest : List Char),
      st.state = .command → st.pending_note = false →
      ¬ is_note_char c → c ≠ 'o' → c ≠ 'O' →
      playLoop st pos (c :: rest) = playLoop st (pos + 1) rest) ∧
    play "%C" = ([(note_to_freq 'C' (Char.ofNat 0) 4, 1000)], -1) := by
  refine ⟨?_, rfl⟩
  intro st pos c rest hst hp hc1 hc2 hc3
  obtain ⟨s0, oc, n, du, ht, pe, ls⟩ := st
  simp only at hst hp
  subst hst
  subst hp
  have hc4 : ¬ (c = 'o' ∨ c = 'O') := by tauto
  simp only [playLoop, step, if_neg hc1, if_neg hc4, Bool.false_eq_true,
    if_false, List.nil_append]

/-- Witness for the amended claim C2 at a concrete input. -/
theorem c2_amended_skip_witness :
    playLoop init_state 0 ['%'] = playLoop init_state 1 [] :=
  c2_amended_skip.1 init_state 0 '%' [] rfl rfl (by decide) (by decide)
    (by decide)

/-- Claim C3.  `play` returns -1 exactly on full consumption; otherwise it
returns the 0-based index of the first rejected character, an index of the
input, and the callback invocations are exactly those made while scanning
up to and including the rejected position (none afterwards).  In
particular `play "C%"` returns 1 with zero callback invocations and
`play "OX"` returns 1. -/
theorem c3_return_value_contract :
    (∀ s : String, (play s).2 = -1 ∨
      ∃ n : Nat, (play s).2 = (n : Int) ∧ n < s.data.length ∧
        play (String.mk (s.data.take (n + 1))) = play s) ∧
    play "C%" = ([], 1) ∧ (play "OX").2 = 1 := by
  refine ⟨?_, rfl, rfl⟩
  intro s
  have hpl : playLoop init_state 0 s.data = play s := rfl
  rcases playLoop_result s.data init_state 0 with h | h <;> rw [hpl] at h
  · left; exact h
  · right
    have h1 : (play s).2 = ((play s).2.toNat : Int) := by omega
    refine ⟨(play s).2.toNat, h1, by omega, ?_⟩
    have h2 := playLoop_take s.data init_state 0 (play s).2.toNat
      (by rw [hpl]; exact h1)
    rw [Nat.sub_zero] at h2
    exact h2

/-- Claim C5.  `play_note` invokes the callback exactly when the duration
is at least 1; a duration below 1 silently suppresses the emission, so the
gap computation `1000 / duration` is guarded against a zero duration.  In
particular in `play "C0D"` the C note (whose duration collapsed to 0) is
never emitted: only the D sounds. -/
theorem c5_duration_guard :
    (∀ (note half_tone : Char) (octave duration : Int),
      (play_note note half_tone octave duration).isSome = true ↔ 1 ≤ duration) ∧
    play "C0D" = ([(note_to_freq 'D' (Char.ofNat 0) 4, 1000)], -1) := by
  refine ⟨?_, rfl⟩
  intro note ht oc du
  unfold play_note
  split_ifs with h <;> simp [h]

/-- Claim C6, counterexample.  The claim says any non-digit arriving while
a note is pending with `length_specified` true makes `play` return the
current offset, and that a second digit always causes an emission.  Both
fail: in `play "C4D"` the non-digit D at offset 2 does not reject (the C
is flushed and D starts a new note; the call returns -1), and in
`play "C00"` the second digit closes the note with duration 0, which is
silently not emitted. -/
theorem c6_counterexample :
    play "C4D" = ([(note_to_freq 'C' (Char.ofNat 0) 4, 250),
                   (note_to_freq 'D' (Char.ofNat 0) 4, 1000)], -1) ∧
    (play "C4D").2 ≠ 2 ∧ play "C00" = ([], -1) := by
  refine ⟨rfl, ?_, rfl⟩
  have h : (play "C4D").2 = -1 := rfl
  rw [h]; decide

/-- Claim C6, amended.  When a note is pending with `length_specified`
true, a second decimal digit flushes the note immediately through
`play_note` with duration `d1 * 10 + d2` (emitted with gap
`1000 / (d1 * 10 + d2)` when that duration is at least 1, silently
suppressed when both digits are 0), after which no note is pending and the
parser is back in state COMMAND; a character in that position that is not
a digit, not a note letter or rest, and not an octave marker makes `play`
return the current offset. -/
theorem c6_amended_second_digit :
    (∀ (st : PlayState) (c : Char) (last : Bool),
      st.state = .command → st.pending_note = true →
      st.length_specified = true →
      ¬ is_note_char c → c ≠ 'o' → c ≠ 'O' →
      ((c.isDigit = true →
        step st c last = some
          ({ st with
              duration := st.duration * 10 + ((c.toNat : Int) - ('0'.toNat : Int))
              pending_note := false
              length_specified := false
              state := .command },
            (play_note st.note st.half_tone st.octave
              (st.duration * 10 + ((c.toNat : Int) - ('0'.toNat : Int)))).toList)) ∧
       (c.isDigit = false → step st c last = none))) ∧
    (∀ (st : PlayState) (pos : Nat) (c : Char) (rest : List Char),
      step st c rest.isEmpty = none →
      playLoop st pos (c :: rest) = ([], (pos : Int))) := by
  constructor
  · intro st c last hst hp hl hc1 hc2 hc3
    obtain ⟨s0, oc, n, du, ht, pe, ls⟩ := st
    simp only at hst hp hl
    subst hst
    subst hp
    subst hl
    have hc4 : ¬ (c = 'o' ∨ c = 'O') := by tauto
    constructor
    · intro hd
      simp only [step, if_neg hc1, if_neg hc4, Bool.not_true, if_pos rfl,
        Bool.false_eq_true, if_false, hd, if_true]
    · intro hd
      simp [step, if_neg hc1, if_neg hc4, hd]
  · intro st pos c rest hs
    simp only [playLoop, hs]

/-- Witness for the amended claim C6 at a concrete input. -/
theorem c6_amended_second_digit_witness :
    step ⟨.command, 4, 'C', 4, Char.ofNat 0, true, true⟩ '2' false = some
      (⟨.command, 4, 'C', 42, Char.ofNat 0, false, false⟩,
        (play_note 'C' (Char.ofNat 0) 4 42).toList) := by
  have h := (c6_amended_second_digit.1 ⟨.command, 4, 'C', 4, Char.ofNat 0, true, true⟩
    '2' false rfl rfl rfl (by decide) (by decide) (by decide)).1 (by decide)
  exact h

/-- Claim C7.  `play "C"` invokes the callback exactly once, with the
frequency of C at the default octave 4 with no accidental, gap
`1000 / 1 = 1000`, and returns -1. -/
theorem c7_single_trailing_note :
    play "C" = ([(note_to_freq 'C' (Char.ofNat 0) 4, 1000)], -1) :=
  rfl

/-- Claim C10.  When the input ends immediately after an octave marker
(the marker seen in state COMMAND is its last character), `play` returns
-1 rather than an error; a pending note is flushed through `play_note` at
the still-current octave, and the octave field keeps its previous value
while the parser moves to state OCTAVE_NUMBER.  In particular `play "CO"`
emits the C at octave 4 and returns -1. -/
theorem c10_trailing_octave_marker :
    (∀ (st : PlayState) (pos : Nat) (c : Char),
      st.state = .command → (c = 'o' ∨ c = 'O') →
      playLoop st pos [c] =
        ((if st.pending_note then
            (play_note st.note st.half_tone st.octave st.duration).toList
          else []), -1) ∧
      ∃ st1 evs, step st c true = some (st1, evs) ∧
        st1.octave = st.octave ∧ st1.state = .octave_number) ∧
    play "CO" = ([(note_to_freq 'C' (Char.ofNat 0) 4, 1000)], -1) := by
  refine ⟨?_, rfl⟩
  intro st pos c hst hc
  obtain ⟨s0, oc, n, du, ht, pe, ls⟩ := st
  simp only at hst
  subst hst
  have hc1 : ¬ is_note_char c := by
    rcases hc with rfl | rfl <;> decide
  cases pe <;>
    simp [playLoop, step, if_neg hc1, if_pos hc, List.isEmpty]

/-- Witness for claim C10 at a concrete input. -/
theorem c10_trailing_octave_marker_witness :
    playLoop init_state 0 ['O'] = ([], -1) := by
  have h := (c10_trailing_octave_marker.1 init_state 0 'O' rfl (Or.inr rfl)).1
  simpa using h

/-- Claim C4.  For every note letter, any half-tone character (read as the
accidental none, sharp or flat exactly as the code reads it) and every
integer octave, `note_to_freq` returns `round(55 * 2^(h/12) * scale)` with
`h` the half-step offset of the letter adjusted by the accidental and
`scale` the octave scale factor of the spec. -/
theorem c4_note_to_freq_matches_spec :
    ∀ (letter half : Char) (octave : Int),
      letter ∈ (['C', 'D', 'E', 'F', 'G', 'A', 'B'] : List Char) →
      note_to_freq letter half octave =
        spec_freq letter (accidental_of half) octave := by
  intro letter half octave _
  have htab : letter_half_steps letter = spec_offset letter := rfl
  by_cases h1 : half = '#' ∨ half = '+'
  · simp only [note_to_freq, spec_freq, accidental_of, spec_scale, if_pos h1,
      spec_acc_adjust, htab]
    split_ifs <;> (congr 1; ring_nf)
  · by_cases h2 : half = '-'
    · simp only [note_to_freq, spec_freq, accidental_of, spec_scale,
        if_neg h1, if_pos h2, spec_acc_adjust, htab]
      split_ifs <;> (congr 1; ring_nf)
    · simp only [note_to_freq, spec_freq, accidental_of, spec_scale,
        if_neg h1, if_neg h2, spec_acc_adjust, htab]
      split_ifs <;> (congr 1; ring_nf)

/-- Witness for claim C4 at a concrete input. -/
theorem c4_note_to_freq_matches_spec_witness :
    'C' ∈ (['C', 'D', 'E', 'F', 'G', 'A', 'B'] : List Char) ∧
    note_to_freq 'C' '#' 1 = spec_freq 'C' (accidental_of '#') 1 :=
  ⟨by decide, c4_note_to_freq_matches_spec 'C' '#' 1 (by decide)⟩

/-- Claim C8.  `play "O5C"` invokes the callback exactly once, with C
resolved at octave 5 (the octave command is applied before the note), and
returns -1; the emitted frequency differs from the octave-4 frequency of
`play "C"`. -/
theorem c8_octave_applies_before_note :
    play "O5C" = ([(note_to_freq 'C' (Char.ofNat 0) 5, 1000)], -1) ∧
    note_to_freq 'C' (Char.ofNat 0) 5 ≠ note_to_freq 'C' (Char.ofNat 0) 4 := by
  refine ⟨rfl, ?_⟩
  have e1 : ¬ (Char.ofNat 0 = '#' ∨ Char.ofNat 0 = '+') := by decide
  have e2 : ¬ (Char.ofNat 0 = '-') := by decide
  have e3 : letter_half_steps 'C' = -21 := by decide
  have h4 : note_to_freq 'C' (Char.ofNat 0) 4 =
      round ((2 : ℝ) ^ ((-21 : ℝ) / 12) * 880) := by
    simp only [note_to_freq, if_neg e1, if_neg e2, e3]
    rw [if_pos (by norm_num : (1 : Int) < 4)]
    congr 1
    push_cast
    rw [show ((2 : ℝ) ^ (4 : ℤ)) = 16 by norm_num]
    ring
  have h5 : note_to_freq 'C' (Char.ofNat 0) 5 =
      round ((2 : ℝ) ^ ((-21 : ℝ) / 12) * 1760) := by
    simp only [note_to_freq, if_neg e1, if_neg e2, e3]
    rw [if_pos (by norm_num : (1 : Int) < 5)]
    congr 1
    push_cast
    rw [show ((2 : ℝ) ^ (5 : ℤ)) = 32 by norm_num]
    ring
  rw [h4, h5]
  set y : ℝ := (2 : ℝ) ^ ((-21 : ℝ) / 12) with hydef
  have hy : (1 : ℝ) / 4 ≤ y := by
    have h2 : (2 : ℝ) ^ ((-2 : ℝ)) ≤ (2 : ℝ) ^ ((-21 : ℝ) / 12) := by
      rw [Real.rpow_le_rpow_left_iff (by norm_num : (1 : ℝ) < 2)]
      norm_num
    calc (1 : ℝ) / 4 = (2 : ℝ) ^ ((-2 : ℝ)) := by
          rw [show ((-2 : ℝ)) = ((-2 : ℤ) : ℝ) by norm_num, Real.rpow_intCast]
          norm_num
      _ ≤ y := by rw [hydef]; exact h2
  rw [round_eq, round_eq]
  intro heq
  have l1 : ((⌊y * 880 + 1 / 2⌋ : ℤ) : ℝ) ≤ y * 880 + 1 / 2 := Int.floor_le _
  have l2 : y * 1760 + 1 / 2 - 1 < ((⌊y * 1760 + 1 / 2⌋ : ℤ) : ℝ) :=
    Int.sub_one_lt_floor _
  rw [heq] at l2
  linarith

/-- Transport of the character classifications of the scanner along a case
variant pair: the note-letter test, the octave-marker test and the digit
test are invariant, an accidental character or a digit is only a case
variant of itself, and the uppercased forms agree. -/
theorem caseVariant_facts {c d : Char} (h : caseVariant c d) :
    (is_note_char c ↔ is_note_char d) ∧
    ((c = 'o' ∨ c = 'O') ↔ (d = 'o' ∨ d = 'O')) ∧
    (c.isDigit = d.isDigit) ∧
    ((c = '#' ∨ c = '+' ∨ c = '-') → c = d) ∧
    ((d = '#' ∨ d = '+' ∨ d = '-') → c = d) ∧
    (c.isDigit = true → c = d) ∧
    c.toUpper = d.toUpper := by
  rcases h with rfl | hmem
  · exact ⟨Iff.rfl, Iff.rfl, rfl, fun _ => rfl, fun _ => rfl, fun _ => rfl, rfl⟩
  · have hall : ∀ p ∈ case_pairs,
        (is_note_char p.1 ↔ is_note_char p.2) ∧
        ((p.1 = 'o' ∨ p.1 = 'O') ↔ (p.2 = 'o' ∨ p.2 = 'O')) ∧
        (p.1.isDigit = p.2.isDigit) ∧
        ((p.1 = '#' ∨ p.1 = '+' ∨ p.1 = '-') → p.1 = p.2) ∧
        ((p.2 = '#' ∨ p.2 = '+' ∨ p.2 = '-') → p.1 = p.2) ∧
        (p.1.isDigit = true → p.1 = p.2) ∧
        p.1.toUpper = p.2.toUpper := by decide
    exact hall (c, d) hmem

/-- The rest test on the stored note character is invariant along a case
variant pair ('r' and 'R' are case variants only of each other). -/
theorem caseVariant_rest_test {n n' : Char} (h : caseVariant n n') :
    (n ≠ 'r' ∧ n ≠ 'R') ↔ (n' ≠ 'r' ∧ n' ≠ 'R') := by
  rcases h with rfl | hmem
  · exact Iff.rfl
  · have hall : ∀ p ∈ case_pairs,
        ((p.1 ≠ 'r' ∧ p.1 ≠ 'R') ↔ (p.2 ≠ 'r' ∧ p.2 ≠ 'R')) := by decide
    exact hall (n, n') hmem

/-- The emitted event of `play_note` only depends on the uppercased note
character. -/
theorem play_note_congr {n n' : Char} (h : n.toUpper = n'.toUpper)
    (half_tone : Char) (octave duration : Int) :
    play_note n half_tone octave duration =
    play_note n' half_tone octave duration := by
  unfold play_note
  rw [h]

/-- One loop iteration transports along case variants: on case variant
characters, from states that agree except for case variant stored notes,
it either rejects on both sides or succeeds on both sides with the same
callback invocations and again related states. -/
theorem step_caseVariant (st : PlayState) (n' c d : Char) (last : Bool)
    (hn : caseVariant st.note n') (hcd : caseVariant c d) :
    outRel (step st c last) (step { st with note := n' } d last) := by
  obtain ⟨s0, oc, n, du, ht, pe, ls⟩ := st
  obtain ⟨hnote, ho, hdig, hacc, hacc', hdigeq, hupper⟩ := caseVariant_facts hcd
  have hrR := caseVariant_rest_test hn
  have hupN : n.toUpper = n'.toUpper := (caseVariant_facts hn).2.2.2.2.2.2
  cases s0
  case command =>
    simp only [step]
    by_cases h1 : is_note_char c
    · rw [if_pos h1, if_pos (hnote.mp h1)]
      refine ⟨rfl, hcd, ?_⟩
      simp only [play_note_congr hupN, play_note_congr hupper]
    · rw [if_neg h1, if_neg (fun hh => h1 (hnote.mpr hh))]
      by_cases h2 : c = 'o' ∨ c = 'O'
      · rw [if_pos h2, if_pos (ho.mp h2)]
        cases pe
        · exact ⟨rfl, hn, rfl⟩
        · refine ⟨rfl, hn, ?_⟩
          simp only [play_note_congr hupN]
      · rw [if_neg h2, if_neg (fun hh => h2 (ho.mpr hh))]
        cases pe
        · simp only [Bool.false_eq_true, if_false]
          exact ⟨rfl, hn, rfl⟩
        · cases ls
          · simp only [Bool.not_false, eq_self_iff_true, if_true]
            by_cases h3 : (c = '#' ∨ c = '+' ∨ c = '-') ∧ n ≠ 'r' ∧ n ≠ 'R'
            · have hceq : c = d := hacc h3.1
              subst hceq
              have h3d : (c = '#' ∨ c = '+' ∨ c = '-') ∧ n' ≠ 'r' ∧ n' ≠ 'R' :=
                ⟨h3.1, hrR.mp h3.2⟩
              rw [if_pos h3, if_pos h3d]
              exact ⟨rfl, hn, rfl⟩
            · have h3' : ¬ ((d = '#' ∨ d = '+' ∨ d = '-') ∧ n' ≠ 'r' ∧ n' ≠ 'R') := by
                intro hh
                have hceq : c = d := hacc' hh.1
                subst hceq
                exact h3 ⟨hh.1, hrR.mpr hh.2⟩
              rw [if_neg h3, if_neg h3']
              by_cases h4 : c.isDigit
              · have hceq : c = d := hdigeq h4
                subst hceq
                rw [if_pos h4, if_pos h4]
                exact ⟨rfl, hn, rfl⟩
              · rw [if_neg h4, if_neg (by rw [← hdig]; exact h4)]
                trivial
          · simp only [Bool.not_true, Bool.false_eq_true, if_false,
              eq_self_iff_true, if_true]
            by_cases h4 : c.isDigit
            · have hceq : c = d := hdigeq h4
              subst hceq
              rw [if_pos h4, if_pos h4]
              refine ⟨rfl, hn, ?_⟩
              simp only [play_note_congr hupN]
            · rw [if_neg h4, if_neg (by rw [← hdig]; exact h4)]
              trivial
  case octave_number =>
    simp only [step]
    by_cases h4 : c.isDigit
    · have hceq : c = d := hdigeq h4
      subst hceq
      rw [if_pos h4, if_pos h4]
      exact ⟨rfl, hn, rfl⟩
    · rw [if_neg h4, if_neg (by rw [← hdig]; exact h4)]
      trivial

/-- The whole parse loop transports along case variant inputs and case
variant stored notes: same callback invocations and same return value. -/
theorem playLoop_caseVariant {l l' : List Char}
    (hll : List.Forall₂ caseVariant l l') :
    ∀ (st : PlayState) (n' : Char) (pos : Nat), caseVariant st.note n' →
    playLoop st pos l = playLoop { st with note := n' } pos l' := by
  induction hll with
  | nil => intro st n' pos hn; rfl
  | @cons a b as bs hcd hrest ih =>
    intro st n' pos hn
    have hlen : bs.isEmpty = as.isEmpty := by
      have hl := List.Forall₂.length_eq hrest
      cases as <;> cases bs <;> simp_all
    have hrel := step_caseVariant st n' a b as.isEmpty hn hcd
    simp only [playLoop, hlen]
    cases hs : step st a as.isEmpty with
    | none =>
      rw [hs] at hrel
      cases hs' : step { st with note := n' } b as.isEmpty with
      | none => rfl
      | some pr => rw [hs'] at hrel; exact absurd hrel (by simp [outRel])
    | some pr =>
      obtain ⟨st1, evs⟩ := pr
      rw [hs] at hrel
      cases hs' : step { st with note := n' } b as.isEmpty with
      | none => rw [hs'] at hrel; exact absurd hrel (by simp [outRel])
      | some pr' =>
        obtain ⟨st1', evs'⟩ := pr'
        rw [hs'] at hrel
        obtain ⟨heq, hcv, hevs⟩ := hrel
        simp only at heq hcv hevs
        have hih := ih st1 st1'.note (pos + 1) hcv
        rw [← heq] at hih
        simp only [hih, hevs]

/-- Claim C9.  Note letters, rests and octave markers are case
insensitive: replacing, at any positions of the input, any of the
characters a-g, r, o by their uppercase forms (or vice versa) yields the
same return value and the identical sequence of callback invocations. -/
theorem c9_case_insensitive (s t : String)
    (h : List.Forall₂ caseVariant s.data t.data) : play s = play t := by
  have h0 : caseVariant init_state.note init_state.note := Or.inl rfl
  have hmain := playLoop_caseVariant h init_state init_state.note 0 h0
  exact hmain

/-- Witness for claim C9 at a concrete input pair. -/
theorem c9_case_insensitive_witness :
    List.Forall₂ caseVariant "cdr".data "CdR".data ∧
    play "cdr" = play "CdR" := by
  have hf : List.Forall₂ caseVariant "cdr".data "CdR".data := by
    refine List.Forall₂.cons (Or.inr (by decide)) ?_
    refine List.Forall₂.cons (Or.inl rfl) ?_
    exact List.Forall₂.cons (Or.inr (by decide)) List.Forall₂.nil
  exact ⟨hf, c9_case_insensitive "cdr" "CdR" hf⟩

end Play
